import Mathlib

/-!
# UploadAssist — verification of the CLI layer and spec-modelled core components

This file shallowly embeds `src/uploadassist/cli.py` (argument parsing via
`argparse`, the `main` entry point's output-directory computation, the call
into `collect`, and the exception-to-exit-code mapping), together with
models, written from the design document, of core components whose source
is not part of the repository snapshot (main-document auto-detection,
the comment stripper, the output layout planner).

Conventions: Python strings are Lean `String`s, Python `None` is `Option.none`,
Python lists are Lean `List`s.  The `argparse` behaviour is modelled for this
specific parser configuration: long options are matched exactly (prefix
abbreviation and the `--opt=value` form are not modelled), an option that
expects a value refuses a following token that looks like an option
(starts with a dash and has length at least 2), and the single optional
positional `texfile` absorbs the first free token while a second free token
is an error.
-/

/-! ## Generic list helpers -/

/-- `isPre a b` holds when `a` is a leading segment of `b`. -/
def isPre {α : Type} (a b : List α) : Prop := ∃ t, a ++ t = b

/-- `isSuf a b` holds when `a` is a trailing segment of `b`. -/
def isSuf {α : Type} (a b : List α) : Prop := ∃ t, t ++ a = b

/-- Does `l` start with the segment `pat`? -/
def startsWithSeg : List Char → List Char → Bool
  | [], _ => true
  | _ :: _, [] => false
  | a :: as, b :: bs => a == b && startsWithSeg as bs

/-- Does `l` contain `pat` as a contiguous segment? -/
def containsSeg (pat : List Char) : List Char → Bool
  | [] => pat.isEmpty
  | c :: rest => startsWithSeg pat (c :: rest) || containsSeg pat rest

/-! ## CLI model — `src/uploadassist/cli.py` -/

/-- The `argparse` namespace produced by `parse_args` (cli.py lines 27–75).
Field names follow the `argparse` destinations.  `include_packages` holds a
list of *lists* of strings because the `AppendList` action is registered with
`nargs=0`: each occurrence of the flag appends the (always empty) list of
consumed argument strings. -/
structure ParsedArgs where
  texfile : Option String
  output : Option String
  noflatten : Bool
  latexmk : String
  engine : String
  no_strip_comments : Bool
  include_packages : Option (List (List String))
  deriving DecidableEq

/-- Outcome of argument parsing: success, an argparse error (argparse exits
with status 2), or the `--version` action (prints and exits). -/
inductive ParseResult where
  | ok (a : ParsedArgs)
  | error (msg : String)
  | versionExit
  deriving DecidableEq

/-- The `choices` list of the `--engine` option (cli.py line 56). -/
def engines : List String := ["pdflatex", "xelatex", "lualatex"]

/-- A token argparse treats as an option rather than a value: it starts with
a dash and is not the bare `"-"`. -/
def optionLike (s : String) : Bool :=
  match s.data with
  | '-' :: _ :: _ => true
  | _ => false

/-- Defaults of the argparse namespace: `texfile=None`, `output=None`,
`noflatten=False`, `latexmk="latexmk"`, `engine="pdflatex"`,
`no_strip_comments=False`, `include_packages=None` (the `AppendList` action
declares no default, so argparse stores `None`). -/
def defaultArgs : ParsedArgs :=
  ⟨none, none, false, "latexmk", "pdflatex", false, none⟩

/-- One-pass model of argparse for this parser.  `pos` records whether the
single optional positional `texfile` has already been filled.
The `--include-packages` branch models `AppendList.__call__` (cli.py
lines 19–24) under `nargs=0`: `values` is the empty list of consumed
argument strings, and it is appended to the current list (which starts as
`None` and is replaced by `[]` on first use). -/
def parseLoop : List String → ParsedArgs → Bool → ParseResult
  | [], a, _ => .ok a
  | t :: rest, a, pos =>
    if t = "--output" || t = "-o" then
      match rest with
      | [] => .error "argument --output/-o: expected one argument"
      | v :: rest2 =>
        if optionLike v then .error "argument --output/-o: expected one argument"
        else parseLoop rest2 { a with output := some v } pos
    else if t = "--noflatten" then
      parseLoop rest { a with noflatten := true } pos
    else if t = "--latexmk" then
      match rest with
      | [] => .error "argument --latexmk: expected one argument"
      | v :: rest2 =>
        if optionLike v then .error "argument --latexmk: expected one argument"
        else parseLoop rest2 { a with latexmk := v } pos
    else if t = "--engine" then
      match rest with
      | [] => .error "argument --engine: expected one argument"
      | v :: rest2 =>
        if optionLike v then .error "argument --engine: expected one argument"
        else if v ∈ engines then parseLoop rest2 { a with engine := v } pos
        else .error "argument --engine: invalid choice"
    else if t = "--no-strip-comments" then
      parseLoop rest { a with no_strip_comments := true } pos
    else if t = "--include-packages" then
      parseLoop rest
        { a with include_packages := some (a.include_packages.getD [] ++ [[]]) } pos
    else if t = "--version" then
      .versionExit
    else if optionLike t then
      .error ("unrecognized arguments: " ++ t)
    else if pos then
      .error ("unrecognized arguments: " ++ t)
    else
      parseLoop rest { a with texfile := some t } true

/-- `parse_args` (cli.py lines 27–75) applied to the argument vector. -/
def parse_args (argv : List String) : ParseResult :=
  parseLoop argv defaultArgs false

/-- Python truthiness of an optional string: `None` and `""` are falsy. -/
def pyTruthy : Option String → Bool
  | none => false
  | some s => !(s == "")

/-- Does the path end with the separator? -/
def endsWithSlash (d : String) : Bool :=
  match d.data.getLast? with
  | some c => c == '/'
  | none => false

/-- `os.path.join` for the shapes appearing in cli.py (second component is a
plain relative name). -/
def joinPath (d n : String) : String :=
  if d = "" then n
  else if endsWithSlash d then d ++ n
  else d ++ "/" ++ n

/-- The keyword arguments of the single `collect(...)` call in `main`
(cli.py lines 120–128). -/
structure CollectCall where
  texfile : Option String
  output_dir : String
  flatten : Bool
  latexmk_path : String
  engine : String
  strip_comments : Bool
  include_packages : Option (List (List String))
  deriving DecidableEq

/-- The body of `main` (cli.py lines 78–128) up to and including the call to
`collect`: computes `flatten`, `strip_comments`, the output directory
(`args.output` if truthy; otherwise `output`/`output_no_flatten` next to the
tex file when `texfile` is truthy, else relative to the current directory),
and passes everything to `collect`.  `absDirOf` abstracts
`os.path.dirname(os.path.abspath(·))`.  `include_packages` is
`getattr(args, "include_packages", [])`; since argparse always sets the
attribute (default `None`), this is just the namespace value. -/
def mainCall (a : ParsedArgs) (absDirOf : String → String) : CollectCall :=
  let flatten := !a.noflatten
  let strip_comments := !a.no_strip_comments
  let output_dir :=
    if pyTruthy a.output then a.output.getD ""
    else if pyTruthy a.texfile then
      joinPath (absDirOf (a.texfile.getD ""))
        (if flatten then "output" else "output_no_flatten")
    else if flatten then "output" else "output_no_flatten"
  { texfile := a.texfile
    output_dir := output_dir
    flatten := flatten
    latexmk_path := a.latexmk
    engine := a.engine
    strip_comments := strip_comments
    include_packages := a.include_packages }

/-- How the `collect` call can end, as seen by `main`'s `try`/`except`:
normal return, a raised `LatexmkException`, or any other `Exception`. -/
inductive CollectOutcome where
  | success
  | latexmkError (msg : String)
  | otherError (msg : String)
  deriving DecidableEq

/-- The message carried by the raised exception. -/
def outcomeMsg : CollectOutcome → String
  | .success => ""
  | .latexmkError m => m
  | .otherError m => m

/-- Process outcome of `main`: clean termination, or `sys.exit(code)` after
printing `stderrLine` to standard error. -/
inductive MainResult where
  | exitOk
  | exitErr (code : Nat) (stderrLine : String)
  deriving DecidableEq

/-- The exception handlers of `main` (cli.py lines 132–137):
`except LatexmkException as e` prints `f"Latexmk error: {e}"` to stderr and
exits 1; `except Exception as e` prints `f"Error: {e}"` to stderr and
exits 1. -/
def mainResult : CollectOutcome → MainResult
  | .success => .exitOk
  | .latexmkError m => .exitErr 1 ("Latexmk error: " ++ m)
  | .otherError m => .exitErr 1 ("Error: " ++ m)

/-! ## Spec-modelled: main-document auto-detection (design §6)

The repository snapshot contains only `cli.py`; the `collect` entry point of
`uploadassist.deps`, which performs the auto-detection, is absent. -/

/-- Modelled from the spec: the auto-detection of the main document performed
at the start of the absent `uploadassist.deps.collect` — "path to the primary
source file, or auto-detected (single `.tex` file in the current directory —
ambiguity with more than one candidate is an error raised before the core
runs)".  `cwdTexFiles` is the list of `.tex` candidates in the current
directory. -/
def autodetectMain : Option String → List String → Except String String
  | some t, _ => .ok t
  | none, files =>
    match files with
    | [f] => .ok f
    | [] => .error "no .tex file found in current directory"
    | _ => .error "multiple .tex files found; specify the main document"

/-- Modelled from the spec: the absent `collect` resolves the main document
first and only then performs the packaging work; `pack` abstracts the whole
packaging phase (the list of files it writes). -/
def collectRun (texfile : Option String) (cwdTexFiles : List String)
    (pack : String → List String) : Except String (List String) :=
  match autodetectMain texfile cwdTexFiles with
  | .error e => .error e
  | .ok m => .ok (pack m)

/-! ## Spec-modelled: CommentStripper (design §4.3)

The `CommentStripper` source is absent from the snapshot; the model follows
the contract: a comment begins at an unescaped `%` and runs to end of line,
except inside regions delimited by verbatim begin/end markers, which are
passed through unmodified; an escaped marker (preceded by an odd number of
escape characters) does not start a comment. -/

/-- Modelled from the spec: one line of comment stripping.  `esc` records
whether the current character is escaped (preceded by an odd number of
backslashes).  An unescaped `%` starts a comment reaching the end of the
line; everything before it is kept unchanged. -/
def stripLineGo (esc : Bool) : List Char → List Char
  | [] => []
  | c :: rest =>
    if c = '%' && !esc then []
    else c :: stripLineGo (c == '\\' && !esc) rest

/-- Strip one (newline-free) line, starting unescaped. -/
def stripLine (l : List Char) : List Char := stripLineGo false l

/-- Split a character list on newline characters (the separators are
dropped; `n` lines have `n-1` separators, so the empty text is one empty
line). -/
def splitNL : List Char → List (List Char)
  | [] => [[]]
  | c :: rest =>
    if c = '\n' then [] :: splitNL rest
    else
      match splitNL rest with
      | [] => [[c]]
      | l :: ls => (c :: l) :: ls

/-- Rejoin lines with newline separators. -/
def joinNL : List (List Char) → List Char
  | [] => []
  | [l] => l
  | l :: ls => l ++ '\n' :: joinNL ls

/-- The verbatim begin marker. -/
def beginMarker : List Char := "\\begin\x7bverbatim\x7d".data

/-- The verbatim end marker. -/
def endMarker : List Char := "\\end\x7bverbatim\x7d".data

/-- Does the line contain the verbatim begin marker? -/
def hasBegin (l : List Char) : Bool := containsSeg beginMarker l

/-- Does the line contain the verbatim end marker? -/
def hasEnd (l : List Char) : Bool := containsSeg endMarker l

/-- Modelled from the spec: line-wise comment stripping with verbatim
tracking.  Outside a verbatim region, a line containing the begin marker
opens the region and is passed through unmodified; other lines are stripped.
Inside the region every line is passed through unmodified, and a line
containing the end marker closes the region. -/
def stripVerb : Bool → List (List Char) → List (List Char)
  | _, [] => []
  | true, l :: ls => l :: stripVerb (!(hasEnd l)) ls
  | false, l :: ls =>
    if hasBegin l then l :: stripVerb true ls
    else stripLine l :: stripVerb false ls

/-- The verbatim state after processing one line in state `b`. -/
def verbState (b : Bool) (l : List Char) : Bool :=
  if b then !(hasEnd l) else hasBegin l

/-- The verbatim state in which line `i` is processed, starting from `b`. -/
def stateAt (b : Bool) : List (List Char) → Nat → Bool
  | _, 0 => b
  | [], _ + 1 => b
  | l :: ls, i + 1 => stateAt (verbState b l) ls i

/-- Comment stripping of a whole text as a character list. -/
def stripChars (cs : List Char) : List Char :=
  joinNL (stripVerb false (splitNL cs))

/-- Modelled from the spec: `strip(text: string) -> string` of the absent
`CommentStripper`. -/
def strip (s : String) : String := String.mk (stripChars s.data)

/-! ## Spec-modelled: OutputLayoutPlanner (design §4.5)

The `OutputLayoutPlanner` source is absent from the snapshot.  A source path
is modelled as its list of components (directories then filename). -/

/-- The base filename of a source path. -/
def baseOf (p : List String) : String := p.getLastD ""

/-- The flattened name derived from the source's original relative path:
components joined with underscores. -/
def mangleOf (p : List String) : String := String.intercalate "_" p

/-- The path-derived name padded with `n` trailing underscores. -/
def padName (p : List String) (n : Nat) : String :=
  mangleOf p ++ String.mk (List.replicate n '_')

/-- Length of the longest destination name used so far. -/
def usedMax (used : List String) : Nat :=
  used.foldr (fun s m => max s.length m) 0

/-- Modelled from the spec: the destination name chosen for source `p` when
flattening, given the already-assigned names `used`.  The base filename is
kept when free (the first-discovered file keeps the unmodified name);
otherwise a deterministic name derived from the source's original relative
path is used, padded until it is fresh. -/
def chooseDest (used : List String) (p : List String) : String :=
  if baseOf p ∈ used then
    if mangleOf p ∈ used then padName p (usedMax used + 1)
    else mangleOf p
  else baseOf p

/-- Fold of `chooseDest` over the sources in traversal-discovery order. -/
def planGo (used : List String) : List (List String) → List String
  | [] => []
  | p :: ps =>
    let d := chooseDest used p
    d :: planGo (d :: used) ps

/-- Modelled from the spec: the flattening layout plan — every source is
assigned a destination name at the output root, collisions resolved in
traversal-discovery order. -/
def planFlatten (srcs : List (List String)) : List String := planGo [] srcs

/-- Longest common leading segment of two component lists. -/
def lcp : List String → List String → List String
  | a :: as, b :: bs => if a = b then a :: lcp as bs else []
  | _, _ => []

/-- The common ancestor directory of all sources (componentwise longest
common leading segment of the sources' directories). -/
def commonDir : List (List String) → List String
  | [] => []
  | p :: ps => (ps.map List.dropLast).foldl lcp p.dropLast

/-- Modelled from the spec: the structure-preserving layout plan —
destination = source path relative to the common ancestor of all sources. -/
def planNoFlatten (srcs : List (List String)) : List (List String) :=
  srcs.map (fun p => p.drop (commonDir srcs).length)

/-- Modelled from the spec: `plan(graph, flatten) -> OutputPlan` of the
absent `OutputLayoutPlanner`, with destinations as component lists. -/
def plan (srcs : List (List String)) (flatten : Bool) : List (List String) :=
  if flatten then (planFlatten srcs).map (fun s => [s])
  else planNoFlatten srcs

/-! ## Theorems -/

/-- C1 (evaluation at the failing input): in
`uploadassist --include-packages pkgdir`, the `AppendList` action is
registered with `nargs=0`, so `--include-packages` consumes no argument:
`"pkgdir"` is parsed as the positional `texfile`, and the occurrence of the
flag appends the empty list of consumed values, so `collect` receives
`include_packages = [[]]` — not the user-supplied path list `["pkgdir"]`
that the option's own help text ("Additional directories or packages to
include") promises. -/
theorem C1_thm :
    parse_args ["--include-packages", "pkgdir"] =
      .ok { defaultArgs with texfile := some "pkgdir", include_packages := some [[]] } ∧
    (mainCall { defaultArgs with texfile := some "pkgdir", include_packages := some [[]] }
        (fun _ => "/work")).include_packages = some [[]] := by
  exact ⟨by decide, by decide⟩

/-- C2: a `LatexmkException` escaping `collect` makes `main` print
`Latexmk error: <msg>` to stderr and exit with status 1, any other
exception makes it print `Error: <msg>` and exit with status 1, and the two
stderr message forms are always distinct. -/
theorem C2_thm :
    (∀ m, mainResult (.latexmkError m) = .exitErr 1 ("Latexmk error: " ++ m)) ∧
    (∀ m, mainResult (.otherError m) = .exitErr 1 ("Error: " ++ m)) ∧
    (∀ m m2, ("Latexmk error: " ++ m) ≠ ("Error: " ++ m2)) := by
  refine ⟨fun m => rfl, fun m => rfl, fun m m2 h => ?_⟩
  exact absurd
    (show ('L' : Char) = 'E' from congrArg (fun s : String => s.data.headD ' ') h)
    (by decide)

/-- C3 (spec-modelled): with no main document supplied and more than one
`.tex` candidate in the current directory, `collect` raises the ambiguity
error before any packaging work — the result is the same error for every
possible packaging continuation. -/
theorem C3_thm (files : List String) (h : 2 ≤ files.length)
    (pack : String → List String) :
    collectRun none files pack =
      .error "multiple .tex files found; specify the main document" := by
  cases files with
  | nil => simp only [List.length_nil] at h; omega
  | cons f1 rest =>
    cases rest with
    | nil => simp only [List.length_cons, List.length_nil] at h; omega
    | cons f2 rest2 => rfl

/-- Witness for C3 at the concrete directory listing `["a.tex", "b.tex"]`. -/
theorem C3_witness :
    collectRun none ["a.tex", "b.tex"] (fun _ => []) =
      .error "multiple .tex files found; specify the main document" :=
  C3_thm ["a.tex", "b.tex"] (by decide) (fun _ => [])

/-- C5: every exception escaping `collect` is reported — `main` exits with
status 1 and the stderr line carries the exception's message as a suffix;
no failing outcome maps to a successful exit. -/
theorem C5_thm (o : CollectOutcome) (h : o ≠ .success) :
    ∃ s, mainResult o = .exitErr 1 s ∧ isSuf (outcomeMsg o).data s.data := by
  cases o with
  | success => exact absurd rfl h
  | latexmkError m => exact ⟨"Latexmk error: " ++ m, rfl, "Latexmk error: ".data, rfl⟩
  | otherError m => exact ⟨"Error: " ++ m, rfl, "Error: ".data, rfl⟩

/-- Witness for C5 at the concrete outcome `otherError "boom"`. -/
theorem C5_witness :
    ∃ s, mainResult (.otherError "boom") = .exitErr 1 s ∧
      isSuf (outcomeMsg (.otherError "boom")).data s.data :=
  C5_thm (.otherError "boom") (by decide)

/-- C8 counterexample: the invocation `uploadassist ""` supplies a texfile
argument (the empty string) and no `--output`, yet `main` computes the
relative output directory `"output"`, not the `output` subdirectory of the
texfile's absolute directory (here `/home/output` for an absolute-directory
function returning `/home`): line 93 of cli.py tests Python truthiness, not
presence. -/
theorem C8_counterexample :
    parse_args [""] = .ok { defaultArgs with texfile := some "" } ∧
    (mainCall { defaultArgs with texfile := some "" }
        (fun _ => "/home")).output_dir = "output" ∧
    joinPath ((fun _ : String => "/home") "") "output" = "/home/output" ∧
    ("output" : String) ≠ "/home/output" := by
  exact ⟨by decide, by decide, by decide, by decide⟩

/-- C8 (amended): when `--output` is not given, a *nonempty* texfile
argument places the output directory `output`/`output_no_flatten` under the
texfile's absolute directory, while a missing *or empty* texfile argument
yields the relative path `output`/`output_no_flatten`. -/
theorem C8_thm (a : ParsedArgs) (f : String → String) (h : a.output = none) :
    (∀ t, a.texfile = some t → t ≠ "" →
      (mainCall a f).output_dir =
        joinPath (f t)
          (if (mainCall a f).flatten then "output" else "output_no_flatten")) ∧
    ((a.texfile = none ∨ a.texfile = some "") →
      (mainCall a f).output_dir =
        (if (mainCall a f).flatten then "output" else "output_no_flatten")) := by
  constructor
  · intro t ht hne
    simp [mainCall, pyTruthy, h, ht, hne]
  · intro ht
    rcases ht with ht | ht <;> simp [mainCall, pyTruthy, h, ht]

/-- Witness for C8 at the concrete namespace with texfile `doc.tex`. -/
theorem C8_witness :
    (mainCall { defaultArgs with texfile := some "doc.tex" }
        (fun _ => "/work")).output_dir =
      joinPath ((fun _ : String => "/work") "doc.tex")
        (if (mainCall { defaultArgs with texfile := some "doc.tex" }
              (fun _ => "/work")).flatten
         then "output" else "output_no_flatten") :=
  (C8_thm { defaultArgs with texfile := some "doc.tex" } (fun _ => "/work")
    rfl).1 "doc.tex" rfl (by decide)

/-- A non-option value token is none of the tracked long flags. -/
theorem value_ne {v : String} (hv : ¬ optionLike v = true) :
    ("--noflatten" : String) ≠ v ∧ ("--no-strip-comments" : String) ≠ v ∧
    ("--include-packages" : String) ≠ v ∧ ("--latexmk" : String) ≠ v ∧
    ("--engine" : String) ≠ v := by
  refine ⟨?_, ?_, ?_, ?_, ?_⟩ <;> intro h <;> cases h <;> exact hv (by decide)

/-- The `--output`/`-o` token is none of the tracked long flags. -/
theorem outputTok_ne {t : String}
    (hc : (decide (t = "--output") || decide (t = "-o")) = true) :
    ("--noflatten" : String) ≠ t ∧ ("--no-strip-comments" : String) ≠ t ∧
    ("--include-packages" : String) ≠ t ∧ ("--latexmk" : String) ≠ t ∧
    ("--engine" : String) ≠ t := by
  rcases (by simpa using hc : t = "--output" ∨ t = "-o") with rfl | rfl <;>
    exact ⟨by decide, by decide, by decide, by decide, by decide⟩

/-- Field tracking through the argparse loop: the two `store_true` flags end
up true exactly when already set or present among the remaining tokens; a
value option's destination is unchanged when its flag is absent; the engine
stays within the `choices` list. -/
theorem parseLoop_fields :
    ∀ toks st pos a, parseLoop toks st pos = .ok a →
      (a.noflatten = (st.noflatten || decide ("--noflatten" ∈ toks))) ∧
      (a.no_strip_comments =
        (st.no_strip_comments || decide ("--no-strip-comments" ∈ toks))) ∧
      ("--include-packages" ∉ toks → a.include_packages = st.include_packages) ∧
      ("--latexmk" ∉ toks → a.latexmk = st.latexmk) ∧
      ("--engine" ∉ toks → a.engine = st.engine) ∧
      (st.engine ∈ engines → a.engine ∈ engines) := by
  intro toks st pos
  induction toks, st, pos using parseLoop.induct with
  | case1 st pos =>
    intro a ha
    simp only [parseLoop, ParseResult.ok.injEq] at ha
    subst ha
    simp
  | case2 t st pos hc =>
    intro a ha
    simp [parseLoop, hc] at ha
  | case3 t st pos hc v rest2 hv =>
    intro a ha
    simp [parseLoop, hc, hv] at ha
  | case4 t st pos hc v rest2 hv ih =>
    intro a ha
    simp [parseLoop, hc, hv] at ha
    obtain ⟨h1, h2, h3, h4, h5, h6⟩ := ih a ha
    obtain ⟨t1, t2, t3, t4, t5⟩ := outputTok_ne hc
    obtain ⟨v1, v2, v3, v4, v5⟩ := value_ne hv
    refine ⟨?_, ?_, fun hm => h3 fun h => hm (by simp [h]),
      fun hm => h4 fun h => hm (by simp [h]),
      fun hm => h5 fun h => hm (by simp [h]), h6⟩
    · rw [h1]; simp [List.mem_cons, t1, v1]
    · rw [h2]; simp [List.mem_cons, t2, v2]
  | case5 rest st pos hc1 ih =>
    intro a ha
    rw [parseLoop.eq_def] at ha
    simp at ha
    obtain ⟨h1, h2, h3, h4, h5, h6⟩ := ih a ha
    refine ⟨?_, ?_, fun hm => h3 fun h => hm (by simp [h]),
      fun hm => h4 fun h => hm (by simp [h]),
      fun hm => h5 fun h => hm (by simp [h]), h6⟩
    · rw [h1]; simp [List.mem_cons]
    · rw [h2]; simp [List.mem_cons]
  | case6 st pos hc1 hc2 =>
    intro a ha
    simp [parseLoop] at ha
  | case7 st pos v rest2 hv hc1 hc2 =>
    intro a ha
    simp [parseLoop, hv] at ha
  | case8 st pos v rest2 hv hc1 hc2 ih =>
    intro a ha
    simp [parseLoop, hv] at ha
    obtain ⟨h1, h2, h3, h4, h5, h6⟩ := ih a ha
    obtain ⟨v1, v2, v3, v4, v5⟩ := value_ne hv
    refine ⟨?_, ?_, fun hm => h3 fun h => hm (by simp [h]),
      fun hm => absurd (by simp) hm,
      fun hm => h5 fun h => hm (by simp [h]), h6⟩
    · rw [h1]; simp [List.mem_cons, v1]
    · rw [h2]; simp [List.mem_cons, v2]
  | case9 st pos hc1 hc2 hc3 =>
    intro a ha
    simp [parseLoop] at ha
  | case10 st pos v rest2 hv hc1 hc2 hc3 =>
    intro a ha
    simp [parseLoop, hv] at ha
  | case11 st pos v rest2 hv hvE hc1 hc2 hc3 ih =>
    intro a ha
    simp [parseLoop, hv, hvE] at ha
    obtain ⟨h1, h2, h3, h4, h5, h6⟩ := ih a ha
    obtain ⟨v1, v2, v3, v4, v5⟩ := value_ne hv
    refine ⟨?_, ?_, fun hm => h3 fun h => hm (by simp [h]),
      fun hm => h4 fun h => hm (by simp [h]),
      fun hm => absurd (by simp) hm,
      fun _ => h6 hvE⟩
    · rw [h1]; simp [List.mem_cons, v1]
    · rw [h2]; simp [List.mem_cons, v2]
  | case12 st pos v rest2 hv hvE hc1 hc2 hc3 =>
    intro a ha
    simp [parseLoop, hv, hvE] at ha
  | case13 rest st pos hc1 hc2 hc3 hc4 ih =>
    intro a ha
    rw [parseLoop.eq_def] at ha
    simp at ha
    obtain ⟨h1, h2, h3, h4, h5, h6⟩ := ih a ha
    refine ⟨?_, ?_, fun hm => h3 fun h => hm (by simp [h]),
      fun hm => h4 fun h => hm (by simp [h]),
      fun hm => h5 fun h => hm (by simp [h]), h6⟩
    · rw [h1]; simp [List.mem_cons]
    · rw [h2]; simp [List.mem_cons]
  | case14 rest st pos hc1 hc2 hc3 hc4 hc5 ih =>
    intro a ha
    rw [parseLoop.eq_def] at ha
    simp at ha
    obtain ⟨h1, h2, h3, h4, h5, h6⟩ := ih a ha
    refine ⟨?_, ?_, fun hm => absurd (by simp) hm,
      fun hm => h4 fun h => hm (by simp [h]),
      fun hm => h5 fun h => hm (by simp [h]), h6⟩
    · rw [h1]; simp [List.mem_cons]
    · rw [h2]; simp [List.mem_cons]
  | case15 rest st pos hc1 hc2 hc3 hc4 hc5 hc6 =>
    intro a ha
    rw [parseLoop.eq_def] at ha
    simp at ha
  | case16 t rest st pos hc1 hc2 hc3 hc4 hc5 hc6 hc7 hopt =>
    intro a ha
    rw [parseLoop.eq_def] at ha
    simp [hc1, hc2, hc3, hc4, hc5, hc6, hc7, hopt] at ha
  | case17 t rest st hc1 hc2 hc3 hc4 hc5 hc6 hc7 hopt =>
    intro a ha
    rw [parseLoop.eq_def] at ha
    simp [hc1, hc2, hc3, hc4, hc5, hc6, hc7, hopt] at ha
  | case18 t rest st pos hc1 hc2 hc3 hc4 hc5 hc6 hc7 hopt hpos ih =>
    intro a ha
    rw [parseLoop.eq_def] at ha
    simp [hc1, hc2, hc3, hc4, hc5, hc6, hc7, hopt, hpos] at ha
    obtain ⟨h1, h2, h3, h4, h5, h6⟩ := ih a ha
    refine ⟨?_, ?_, fun hm => h3 fun h => hm (by simp [h]),
      fun hm => h4 fun h => hm (by simp [h]),
      fun hm => h5 fun h => hm (by simp [h]), h6⟩
    · rw [h1]; simp [List.mem_cons, Ne.symm hc2]
    · rw [h2]; simp [List.mem_cons, Ne.symm hc5]

/-- C4: for every successfully parsed invocation, `latexmk_path` and
`engine` are passed through to `collect` unchanged from the parsed values,
they default to `latexmk` and `pdflatex` when their flags are absent, the
engine always lies in the `choices` list `pdflatex`/`xelatex`/`lualatex`,
and a supplied option value is stored verbatim by the parser. -/
theorem C4_thm :
    (∀ argv a f, parse_args argv = .ok a →
      (mainCall a f).latexmk_path = a.latexmk ∧
      (mainCall a f).engine = a.engine ∧
      a.engine ∈ engines ∧
      ("--latexmk" ∉ argv → a.latexmk = "latexmk") ∧
      ("--engine" ∉ argv → a.engine = "pdflatex")) ∧
    (∀ v rest st pos, optionLike v = false → v ∈ engines →
      parseLoop ("--engine" :: v :: rest) st pos =
        parseLoop rest { st with engine := v } pos) ∧
    (∀ v rest st pos, optionLike v = false →
      parseLoop ("--latexmk" :: v :: rest) st pos =
        parseLoop rest { st with latexmk := v } pos) := by
  refine ⟨?_, ?_, ?_⟩
  · intro argv a f h
    obtain ⟨-, -, -, h4, h5, h6⟩ := parseLoop_fields argv defaultArgs false a h
    exact ⟨rfl, rfl, h6 (by decide), fun hm => h4 hm, fun hm => h5 hm⟩
  · intro v rest st pos hv hvE
    simp [parseLoop, hv, hvE]
  · intro v rest st pos hv
    simp [parseLoop, hv]

/-- Witness for C4 at the invocation `--engine xelatex`. -/
theorem C4_witness :
    (mainCall { defaultArgs with engine := "xelatex" } (fun _ => "")).engine =
      "xelatex" ∧ ("xelatex" : String) ∈ engines :=
  have h := C4_thm.1 ["--engine", "xelatex"] { defaultArgs with engine := "xelatex" }
    (fun _ => "") (by decide)
  ⟨h.2.1, h.2.2.1⟩

/-- C9: when `--include-packages` never appears on the command line,
`collect` is invoked with `include_packages = None` (not an empty list):
the argparse default is `None` and `main` passes the attribute through. -/
theorem C9_thm (argv : List String) (a : ParsedArgs) (f : String → String)
    (h : parse_args argv = .ok a) (habs : "--include-packages" ∉ argv) :
    (mainCall a f).include_packages = none := by
  obtain ⟨-, -, h3, -, -, -⟩ := parseLoop_fields argv defaultArgs false a h
  exact h3 habs

/-- Witness for C9 at the invocation `uploadassist doc.tex`. -/
theorem C9_witness :
    (mainCall { defaultArgs with texfile := some "doc.tex" }
      (fun _ => "")).include_packages = none :=
  C9_thm ["doc.tex"] { defaultArgs with texfile := some "doc.tex" }
    (fun _ => "") (by decide) (by decide)

/-- C10: `collect` receives `flatten = True` iff `--noflatten` is absent
from the command line, and `strip_comments = True` iff `--no-strip-comments`
is absent; in particular both are enabled by default. -/
theorem C10_thm (argv : List String) (a : ParsedArgs) (f : String → String)
    (h : parse_args argv = .ok a) :
    ((mainCall a f).flatten = true ↔ "--noflatten" ∉ argv) ∧
    ((mainCall a f).strip_comments = true ↔ "--no-strip-comments" ∉ argv) := by
  obtain ⟨h1, h2, -, -, -, -⟩ := parseLoop_fields argv defaultArgs false a h
  constructor
  · show (!a.noflatten) = true ↔ _
    rw [h1]
    simp [defaultArgs]
  · show (!a.no_strip_comments) = true ↔ _
    rw [h2]
    simp [defaultArgs]

/-- Witness for C10 at the empty invocation (both defaults enabled). -/
theorem C10_witness :
    ((mainCall defaultArgs (fun _ => "")).flatten = true ↔
      "--noflatten" ∉ ([] : List String)) ∧
    ((mainCall defaultArgs (fun _ => "")).strip_comments = true ↔
      "--no-strip-comments" ∉ ([] : List String)) :=
  C10_thm [] defaultArgs (fun _ => "") (by decide)

/-- A stripped line is a leading segment of the original line. -/
theorem stripLineGo_pre (esc : Bool) (l : List Char) :
    isPre (stripLineGo esc l) l := by
  induction l generalizing esc with
  | nil => exact ⟨[], rfl⟩
  | cons c rest ih =>
    by_cases h : (decide (c = '%') && !esc) = true
    · exact ⟨c :: rest, by simp [stripLineGo, h]⟩
    · obtain ⟨t, ht⟩ := ih ((c == '\\') && !esc)
      exact ⟨t, by simp [stripLineGo, h, ht]⟩

/-- Stripping a line twice is the same as stripping it once. -/
theorem stripLineGo_idem (esc : Bool) (l : List Char) :
    stripLineGo esc (stripLineGo esc l) = stripLineGo esc l := by
  induction l generalizing esc with
  | nil => rfl
  | cons c rest ih =>
    by_cases h : (decide (c = '%') && !esc) = true
    · simp [stripLineGo, h]
    · simp [stripLineGo, h, ih]

/-- The empty pattern is a segment of every list. -/
theorem containsSeg_nil_pat (l : List Char) : containsSeg [] l = true := by
  cases l with
  | nil => rfl
  | cons c rest => simp [containsSeg, startsWithSeg]

/-- A pattern matching the front of `a` matches the front of `a ++ t`. -/
theorem startsWithSeg_append (pat a t : List Char)
    (h : startsWithSeg pat a = true) : startsWithSeg pat (a ++ t) = true := by
  induction pat generalizing a with
  | nil => rfl
  | cons p ps ih =>
    cases a with
    | nil => simp [startsWithSeg] at h
    | cons b bs =>
      simp [startsWithSeg] at h ⊢
      exact ⟨h.1, ih bs h.2⟩

/-- Segment containment is preserved by appending on the right. -/
theorem containsSeg_mono (pat a t : List Char)
    (h : containsSeg pat a = true) : containsSeg pat (a ++ t) = true := by
  induction a with
  | nil =>
    have : pat = [] := by simpa [containsSeg, List.isEmpty_iff] using h
    subst this
    exact containsSeg_nil_pat t
  | cons b bs ih =>
    simp only [containsSeg, Bool.or_eq_true] at h
    rcases h with h | h
    · have := startsWithSeg_append pat (b :: bs) t h
      simp only [List.cons_append] at this ⊢
      simp [containsSeg, this]
    · simp only [List.cons_append, containsSeg, Bool.or_eq_true]
      exact Or.inr (ih h)

/-- If a stripped line contains the begin marker, so did the original. -/
theorem hasBegin_of_stripLine {l : List Char}
    (h : hasBegin (stripLine l) = true) : hasBegin l = true := by
  obtain ⟨t, ht⟩ := stripLineGo_pre false l
  rw [← ht]
  exact containsSeg_mono _ _ _ h

/-- Line-wise stripping is idempotent. -/
theorem stripVerb_idem (b : Bool) (ls : List (List Char)) :
    stripVerb b (stripVerb b ls) = stripVerb b ls := by
  induction ls generalizing b with
  | nil => cases b <;> rfl
  | cons l ls ih =>
    cases b with
    | true =>
      simp only [stripVerb]
      rw [ih]
    | false =>
      by_cases hb : hasBegin l = true
      · simp only [stripVerb, if_pos hb]
        rw [ih]
      · have hb2 : ¬ hasBegin (stripLine l) = true :=
          fun hx => hb (hasBegin_of_stripLine hx)
        simp only [stripVerb, if_neg hb, if_neg hb2]
        rw [show stripLine (stripLine l) = stripLine l from stripLineGo_idem false l, ih]

/-- Line-wise stripping preserves the number of lines. -/
theorem stripVerb_len (b : Bool) (ls : List (List Char)) :
    (stripVerb b ls).length = ls.length := by
  induction ls generalizing b with
  | nil => cases b <;> rfl
  | cons l ls ih =>
    cases b with
    | true => simp [stripVerb, ih]
    | false => by_cases hb : hasBegin l = true <;> simp [stripVerb, hb, ih]

/-- Splitting never yields an empty list of lines. -/
theorem splitNL_ne_nil (cs : List Char) : splitNL cs ≠ [] := by
  cases cs with
  | nil => simp [splitNL]
  | cons c rest =>
    by_cases hc : c = '\n'
    · simp [splitNL, hc]
    · cases hsp : splitNL rest with
      | nil => simp [splitNL, hc, hsp]
      | cons m ms => simp [splitNL, hc, hsp]

/-- Lines produced by splitting contain no newline. -/
theorem splitNL_noNL : ∀ cs : List Char, ∀ l ∈ splitNL cs, '\n' ∉ l := by
  intro cs
  induction cs with
  | nil =>
    intro l hl
    simp [splitNL] at hl
    subst hl
    simp
  | cons c rest ih =>
    intro l hl
    by_cases hc : c = '\n'
    · subst hc
      simp [splitNL] at hl
      rcases hl with rfl | hl
      · simp
      · exact ih l hl
    · cases hsp : splitNL rest with
      | nil => exact absurd hsp (splitNL_ne_nil rest)
      | cons m ms =>
        simp [splitNL, hc, hsp] at hl
        rcases hl with rfl | hl
        · intro hmem
          rcases List.mem_cons.mp hmem with hx | hx
          · exact hc hx.symm
          · exact ih m (by simp [hsp]) hx
        · exact ih l (by simp [hsp, hl])

/-- Splitting after prepending a newline-free chunk prepends it to the
first line. -/
theorem splitNL_append (l : List Char) (hl : '\n' ∉ l) :
    ∀ cs h t2, splitNL cs = h :: t2 → splitNL (l ++ cs) = (l ++ h) :: t2 := by
  induction l with
  | nil =>
    intro cs h t2 hs
    simpa using hs
  | cons c cl ih =>
    intro cs h t2 hs
    have hc : ¬ c = '\n' := fun hx => hl (by simp [hx])
    have ih2 := ih (fun hx => hl (List.mem_cons_of_mem _ hx)) cs h t2 hs
    simp only [List.cons_append]
    simp [splitNL, hc, ih2]

/-- Splitting is a left inverse of joining for nonempty newline-free
line lists. -/
theorem splitNL_joinNL : ∀ ls : List (List Char), ls ≠ [] →
    (∀ l ∈ ls, '\n' ∉ l) → splitNL (joinNL ls) = ls := by
  intro ls
  induction ls with
  | nil => intro h _; exact absurd rfl h
  | cons l ls ih =>
    intro _ hno
    cases ls with
    | nil =>
      have hl : '\n' ∉ l := hno l (by simp)
      have h2 := splitNL_append l hl [] [] [] rfl
      simpa [joinNL] using h2
    | cons m ms =>
      have hl : '\n' ∉ l := hno l (by simp)
      have hrest : splitNL (joinNL (m :: ms)) = m :: ms :=
        ih (by simp) (fun x hx => hno x (List.mem_cons_of_mem _ hx))
      have hs : splitNL ('\n' :: joinNL (m :: ms)) = [] :: m :: ms := by
        simp [splitNL, hrest]
      have h2 := splitNL_append l hl ('\n' :: joinNL (m :: ms)) [] (m :: ms) hs
      simpa [joinNL] using h2

/-- Line-wise stripping preserves newline-freeness of the lines. -/
theorem stripVerb_noNL : ∀ (ls : List (List Char)) (b : Bool),
    (∀ l ∈ ls, '\n' ∉ l) → ∀ l ∈ stripVerb b ls, '\n' ∉ l := by
  intro ls
  induction ls with
  | nil =>
    intro b h l hl
    cases b <;> simp [stripVerb] at hl
  | cons x xs ih =>
    intro b h l hl
    cases b with
    | true =>
      simp [stripVerb] at hl
      rcases hl with rfl | hl
      · exact h l (by simp)
      · exact ih _ (fun y hy => h y (by simp [hy])) _ hl
    | false =>
      by_cases hb : hasBegin x = true
      · simp [stripVerb, hb] at hl
        rcases hl with rfl | hl
        · exact h l (by simp)
        · exact ih _ (fun y hy => h y (by simp [hy])) _ hl
      · simp [stripVerb, hb] at hl
        rcases hl with rfl | hl
        · obtain ⟨t, ht⟩ := stripLineGo_pre false x
          intro hmem
          exact h x (by simp) (by rw [← ht]; exact List.mem_append_left _ hmem)
        · exact ih _ (fun y hy => h y (by simp [hy])) _ hl

/-- Any line processed while the verbatim state is on, or any line opening
a verbatim region, appears unchanged in the stripped output. -/
theorem stripVerb_preserve : ∀ (ls : List (List Char)) (b : Bool) (i : Nat),
    i < ls.length → (stateAt b ls i || hasBegin (ls.getD i [])) = true →
    (stripVerb b ls).getD i [] = ls.getD i [] := by
  intro ls
  induction ls with
  | nil => intro b i hi _; simp at hi
  | cons x xs ih =>
    intro b i hi hcond
    cases i with
    | zero =>
      cases b with
      | true => simp [stripVerb]
      | false =>
        have hb : hasBegin x = true := by simpa [stateAt] using hcond
        simp [stripVerb, hb]
    | succ j =>
      have hj : j < xs.length := by simpa using hi
      have hcond2 :
          (stateAt (verbState b x) xs j || hasBegin (xs.getD j [])) = true := by
        simpa [stateAt] using hcond
      cases b with
      | true =>
        have h2 := ih (!(hasEnd x)) j hj (by simpa [verbState] using hcond2)
        simpa [stripVerb] using h2
      | false =>
        by_cases hb : hasBegin x = true
        · have h2 := ih true j hj (by simpa [verbState, hb] using hcond2)
          simpa [stripVerb, hb] using h2
        · have h2 := ih false j hj (by simpa [verbState, hb] using hcond2)
          simpa [stripVerb, hb] using h2

/-- Idempotence of whole-text stripping at the character level. -/
theorem stripChars_idem (cs : List Char) :
    stripChars (stripChars cs) = stripChars cs := by
  unfold stripChars
  have h1 : splitNL (joinNL (stripVerb false (splitNL cs))) =
      stripVerb false (splitNL cs) := by
    apply splitNL_joinNL
    · intro hx
      have hlen := stripVerb_len false (splitNL cs)
      rw [hx] at hlen
      exact splitNL_ne_nil cs (List.length_eq_zero.mp hlen.symm)
    · exact stripVerb_noNL (splitNL cs) false (splitNL_noNL cs)
  rw [h1, stripVerb_idem]

/-- Idempotence of `strip` on strings. -/
theorem strip_idem (s : String) : strip (strip s) = strip s := by
  unfold strip
  exact congrArg String.mk (stripChars_idem s.data)

/-- The design document's first stripping example. -/
theorem strip_example_comment : strip "a %comment\nb" = "a \nb" := by decide

/-- The design document's second stripping example: an escaped `%` does not
start a comment. -/
theorem strip_example_escaped : strip "a \\%not-comment" = "a \\%not-comment" := by
  decide

/-- C6: the comment stripper is idempotent — `strip (strip text) = strip
text` for every string — and it never alters a line lying inside a
verbatim-delimited region (including the delimiter lines themselves): any
line processed in the verbatim state, or opening it, reappears unchanged at
the same position of the output. -/
theorem C6_thm :
    (∀ s : String, strip (strip s) = strip s) ∧
    (∀ (b : Bool) (ls : List (List Char)) (i : Nat), i < ls.length →
      (stateAt b ls i || hasBegin (ls.getD i [])) = true →
      (stripVerb b ls).getD i [] = ls.getD i []) :=
  ⟨strip_idem, fun b ls i hi hc => stripVerb_preserve ls b i hi hc⟩

/-- Witness for C6: the middle line of a concrete verbatim block (which
contains a `%`) is preserved byte-for-byte. -/
theorem C6_witness :
    (stripVerb false
        ["\\begin\x7bverbatim\x7d".data, "x % y".data, "\\end\x7bverbatim\x7d".data]).getD
        1 [] =
      (["\\begin\x7bverbatim\x7d".data, "x % y".data,
        "\\end\x7bverbatim\x7d".data]).getD 1 [] :=
  C6_thm.2 false
    ["\\begin\x7bverbatim\x7d".data, "x % y".data, "\\end\x7bverbatim\x7d".data]
    1 (by decide) (by decide)

/-- `isPre` is transitive. -/
theorem isPre_trans {α : Type} {a b c : List α} (h1 : isPre a b)
    (h2 : isPre b c) : isPre a c := by
  obtain ⟨t1, ht1⟩ := h1
  obtain ⟨t2, ht2⟩ := h2
  exact ⟨t1 ++ t2, by rw [← List.append_assoc, ht1, ht2]⟩

/-- Every member of `used` is at most `usedMax used` long. -/
theorem usedMax_mem : ∀ {used : List String} {s : String}, s ∈ used →
    s.length ≤ usedMax used := by
  intro used
  induction used with
  | nil => intro s hs; simp at hs
  | cons x xs ih =>
    intro s hs
    rcases List.mem_cons.mp hs with rfl | hs
    · simp [usedMax]
    · calc s.length ≤ usedMax xs := ih hs
        _ ≤ usedMax (x :: xs) := by simp [usedMax]

/-- String length adds over append. -/
theorem strLen_append (a b : String) :
    (a ++ b).length = a.length + b.length := by
  show (a ++ b).data.length = a.data.length + b.data.length
  rw [show (a ++ b).data = a.data ++ b.data from rfl]
  exact List.length_append _ _

/-- The freshly chosen destination is never an already-used name. -/
theorem chooseDest_not_mem (used : List String) (p : List String) :
    chooseDest used p ∉ used := by
  unfold chooseDest
  by_cases h1 : baseOf p ∈ used
  · simp only [if_pos h1]
    by_cases h2 : mangleOf p ∈ used
    · simp only [if_pos h2]
      intro hmem
      have hle := usedMax_mem hmem
      have hlen : (padName p (usedMax used + 1)).length =
          (mangleOf p).length + (usedMax used + 1) := by
        unfold padName
        rw [strLen_append]
        congr 1
        show (List.replicate (usedMax used + 1) '_').length = usedMax used + 1
        exact List.length_replicate _ _
      omega
    · simp only [if_neg h2]
      exact h2
  · simp only [if_neg h1]
    exact h1

/-- The flattening fold assigns pairwise-distinct names, all avoiding the
already-used set. -/
theorem planGo_spec : ∀ (ps : List (List String)) (used : List String),
    (planGo used ps).Nodup ∧ ∀ d ∈ planGo used ps, d ∉ used := by
  intro ps
  induction ps with
  | nil => intro used; exact ⟨List.nodup_nil, by simp [planGo]⟩
  | cons p ps ih =>
    intro used
    obtain ⟨hnd, hout⟩ := ih (chooseDest used p :: used)
    constructor
    · refine List.nodup_cons.mpr ⟨?_, hnd⟩
      intro hmem
      exact (hout _ hmem) (by simp)
    · intro d hd
      simp only [planGo] at hd
      rcases List.mem_cons.mp hd with rfl | hd
      · exact chooseDest_not_mem used p
      · intro hmem
        exact (hout d hd) (by simp [hmem])

/-- When a source's base name was not yet taken by any earlier destination,
the source keeps its unmodified base name. -/
theorem planGo_first : ∀ (ps : List (List String)) (used : List String) (i : Nat),
    i < ps.length → baseOf (ps.getD i []) ∉ used →
    baseOf (ps.getD i []) ∉ (planGo used ps).take i →
    (planGo used ps).getD i "" = baseOf (ps.getD i []) := by
  intro ps
  induction ps with
  | nil => intro used i hi _ _; simp at hi
  | cons p ps ih =>
    intro used i hi hused htake
    cases i with
    | zero =>
      simp only [List.getD_cons_zero] at hused ⊢
      simp [planGo, chooseDest, hused]
    | succ j =>
      have hj : j < ps.length := by simpa using hi
      simp only [List.getD_cons_succ] at hused htake ⊢
      have hplan : planGo used (p :: ps) =
          chooseDest used p :: planGo (chooseDest used p :: used) ps := rfl
      rw [hplan] at htake ⊢
      simp only [List.take_succ_cons] at htake
      have hd : baseOf (ps.getD j []) ∉ chooseDest used p :: used := by
        intro hx
        rcases List.mem_cons.mp hx with hx | hx
        · exact htake (List.mem_cons.mpr (Or.inl hx))
        · exact hused hx
      have ht2 : baseOf (ps.getD j []) ∉
          (planGo (chooseDest used p :: used) ps).take j := by
        intro hx
        exact htake (List.mem_cons.mpr (Or.inr hx))
      have h3 := ih (chooseDest used p :: used) j hj hd ht2
      simpa using h3

/-- The longest common leading segment is a leading segment of the left
argument. -/
theorem lcp_pre_left : ∀ a b : List String, isPre (lcp a b) a := by
  intro a
  induction a with
  | nil => intro b; exact ⟨[], by cases b <;> simp [lcp]⟩
  | cons x xs ih =>
    intro b
    cases b with
    | nil => exact ⟨x :: xs, by simp [lcp]⟩
    | cons y ys =>
      by_cases h : x = y
      · obtain ⟨t, ht⟩ := ih ys
        exact ⟨t, by simp [lcp, h, ht]⟩
      · exact ⟨x :: xs, by simp [lcp, h]⟩

/-- The longest common leading segment is a leading segment of the right
argument. -/
theorem lcp_pre_right : ∀ a b : List String, isPre (lcp a b) b := by
  intro a
  induction a with
  | nil => intro b; exact ⟨b, by cases b <;> simp [lcp]⟩
  | cons x xs ih =>
    intro b
    cases b with
    | nil => exact ⟨[], by simp [lcp]⟩
    | cons y ys =>
      by_cases h : x = y
      · obtain ⟨t, ht⟩ := ih ys
        subst h
        exact ⟨t, by simp [lcp, ht]⟩
      · exact ⟨y :: ys, by simp [lcp, h]⟩

/-- The fold of `lcp` is a leading segment of the accumulator and of every
folded element. -/
theorem foldl_lcp_pre : ∀ (ys : List (List String)) (acc : List String),
    isPre (ys.foldl lcp acc) acc ∧ ∀ y ∈ ys, isPre (ys.foldl lcp acc) y := by
  intro ys
  induction ys with
  | nil => intro acc; exact ⟨⟨[], by simp⟩, by simp⟩
  | cons y ys ih =>
    intro acc
    obtain ⟨h1, h2⟩ := ih (lcp acc y)
    refine ⟨isPre_trans h1 (lcp_pre_left acc y), ?_⟩
    intro z hz
    rcases List.mem_cons.mp hz with rfl | hz
    · exact isPre_trans h1 (lcp_pre_right acc z)
    · exact h2 z hz

/-- The common ancestor directory is a leading segment of every source's
directory part. -/
theorem commonDir_pre : ∀ (srcs : List (List String)) (p : List String),
    p ∈ srcs → isPre (commonDir srcs) p.dropLast := by
  intro srcs p hp
  cases srcs with
  | nil => simp at hp
  | cons q qs =>
    obtain ⟨h1, h2⟩ := foldl_lcp_pre (qs.map List.dropLast) q.dropLast
    rcases List.mem_cons.mp hp with rfl | hp
    · exact h1
    · exact h2 _ (List.mem_map_of_mem _ hp)

/-- A list's directory part is a leading segment of the list. -/
theorem dropLast_pre {α : Type} (p : List α) : isPre p.dropLast p := by
  rcases List.eq_nil_or_concat p with rfl | ⟨q, a, rfl⟩
  · exact ⟨[], rfl⟩
  · exact ⟨[a], by simp⟩

/-- Dropping the length of a leading segment and restoring it is the
identity. -/
theorem pre_restore {α : Type} {cp p : List α} (h : isPre cp p) :
    cp ++ p.drop cp.length = p := by
  obtain ⟨t, ht⟩ := h
  subst ht
  rw [List.drop_left]

/-- The structure-preserving plan keeps distinct sources distinct. -/
theorem planNoFlatten_nodup (srcs : List (List String)) (h : srcs.Nodup) :
    (planNoFlatten srcs).Nodup := by
  unfold planNoFlatten
  apply List.Nodup.map_on ?_ h
  intro x hx y hy hxy
  have ex := pre_restore (isPre_trans (commonDir_pre srcs x hx) (dropLast_pre x))
  have ey := pre_restore (isPre_trans (commonDir_pre srcs y hy) (dropLast_pre y))
  rw [← ex, ← ey, hxy]

/-- Sanity check: the design document's flattening example — `a/fig.png`
keeps `fig.png` and `b/fig.png` is disambiguated from its relative path. -/
theorem planFlatten_example :
    planFlatten [["a", "fig.png"], ["b", "fig.png"]] = ["fig.png", "b_fig.png"] := by
  decide

/-- C7: for every source set (distinct sources), the layout plan assigns
pairwise-distinct destinations in both modes; when flattening, name
collisions are disambiguated deterministically rather than overwritten, and
a source whose base filename was not claimed by any earlier-planned
destination keeps its unmodified base name (in particular the
first-discovered of two same-base sources). -/
theorem C7_thm (srcs : List (List String)) (hnd : srcs.Nodup) (fl : Bool) :
    (plan srcs fl).Nodup ∧
    (∀ i, i < srcs.length →
      baseOf (srcs.getD i []) ∉ (planFlatten srcs).take i →
      (planFlatten srcs).getD i "" = baseOf (srcs.getD i [])) := by
  constructor
  · cases fl with
    | true =>
      show ((planFlatten srcs).map (fun s => [s])).Nodup
      exact List.Nodup.map (fun a b h => by simpa using h) (planGo_spec srcs []).1
    | false =>
      show (planNoFlatten srcs).Nodup
      exact planNoFlatten_nodup srcs hnd
  · intro i hi htake
    exact planGo_first srcs [] i hi (by simp) htake

/-- Witness for C7 at the design document's two-source example. -/
theorem C7_witness :
    (plan [["a", "fig.png"], ["b", "fig.png"]] true).Nodup ∧
    (planFlatten [["a", "fig.png"], ["b", "fig.png"]]).getD 0 "" =
      baseOf ([["a", "fig.png"], ["b", "fig.png"]].getD 0 []) :=
  have h := C7_thm [["a", "fig.png"], ["b", "fig.png"]] (by decide) true
  ⟨h.1, h.2 0 (by decide) (by decide)⟩
